import Mathlib

/-!
Verification of the core logic of `01_anac_od_download.py` (ANAC open-data
downloader): URL catalog generation (`url_generate`), filename prefix
normalization (`normalize_prefix`, the inner helper of `merge_csv_files`),
and CSV consolidation (`merge_csv_files`).

The Python code is shallowly embedded: strings are Lean `String`s
(lists of characters), Python exceptions are modelled by `Option`
(`none` = the call raises), and the filesystem effects of
`merge_csv_files` are made explicit in a `MergeEffect` record.
-/

set_option maxRecDepth 8000

namespace AnacOd

/-! ## Python primitives -/

/-- Value of a decimal digit list, most significant first. -/
def digitsVal (l : List Char) : Nat :=
  l.foldl (fun acc c => acc * 10 + (c.toNat - 48)) 0

/-- Models Python `int(s)` on a string: an optional sign followed by ASCII
digits gives `some`, anything else raises (`none`).  Python also tolerates
surrounding whitespace and underscore digit separators; those inputs are
conservatively modelled as failing and no theorem instantiates them. -/
def pyInt? (s : String) : Option Int :=
  match s.data with
  | [] => none
  | '-' :: ds => if ds ≠ [] ∧ ds.all Char.isDigit then some (-(digitsVal ds : Int)) else none
  | '+' :: ds => if ds ≠ [] ∧ ds.all Char.isDigit then some (digitsVal ds : Int) else none
  | ds => if ds.all Char.isDigit then some (digitsVal ds : Int) else none

/-- `pyInt?` with a default, convenient for stating characterizations. -/
def pyIntD (s : String) : Int := (pyInt? s).getD 0

/-- Decimal digits of a natural number, most significant first; the first
argument is fuel making the recursion structural. -/
def natDigitsAux : Nat → Nat → List Char
  | 0, _ => []
  | fuel + 1, n => if n < 10 then [Nat.digitChar n] else natDigitsAux fuel (n / 10) ++ [Nat.digitChar (n % 10)]

def natDigits (n : Nat) : List Char := natDigitsAux (n + 1) n

/-- Models the Python format spec `f"{i:0w}"` for an `int`: zero-pad to
total width `w`, the sign (for negatives) counting toward the width and
placed before the padding. -/
def formatInt (i : Int) (w : Nat) : String :=
  if i < 0 then
    let ds := natDigits i.natAbs
    ⟨'-' :: (List.replicate (w - 1 - ds.length) '0' ++ ds)⟩
  else
    let ds := natDigits i.toNat
    ⟨List.replicate (w - ds.length) '0' ++ ds⟩

/-- One fuel-indexed step of Python `str.replace`: scan left to right and
replace every non-overlapping occurrence of `n` by `r`.  The fuel is an
upper bound on the scanned length; `replaceAll` seeds it with the full
length, which suffices. -/
def replaceAllF (n r : List Char) : Nat → List Char → List Char
  | 0, l => l
  | fuel + 1, l =>
    match l with
    | [] => []
    | c :: t =>
      if n ≠ [] ∧ n.isPrefixOf (c :: t) then r ++ replaceAllF n r fuel ((c :: t).drop n.length)
      else c :: replaceAllF n r fuel t

/-- Python `haystack.replace(needle, repl)` for a nonempty literal needle
(the program only ever replaces the fixed placeholder tokens). -/
def replaceAll (n r l : List Char) : List Char := replaceAllF n r l.length l

/-- Python `p.replace(n, r)` on strings. -/
def pySubst (p n r : String) : String := ⟨replaceAll n.data r.data p.data⟩

/-- Python substring test `n in l` on character lists. -/
def containsSub : List Char → List Char → Bool
  | n, [] => n.isEmpty
  | n, c :: t => n.isPrefixOf (c :: t) || containsSub n t

/-! ## URL catalog generation (`url_generate`) -/

/-- The body of the innermost loop of `url_generate`: substitute
`{YYYY}`, `{MM}`, `{DD}` in this order, then `{dataset-name}` only if it
still occurs in the partially substituted URL. -/
def buildUrl (pattern : String) (year mi di : Int) (key : String) : String :=
  let url := pySubst (pySubst (pySubst pattern "{YYYY}" (formatInt year 4)) "{MM}" (formatInt mi 2)) "{DD}" (formatInt di 2)
  if containsSub "{dataset-name}".data url.data then pySubst url "{dataset-name}" key else url

/-- The month loop of `url_generate` for a fixed year: per month, Python
evaluates `int(month)` and `int(day)` (either may raise, `none`), then
appends one URL per pattern. -/
def urlsForYear (year : Int) (months patterns : List String) (key day : String) : Option (List String) :=
  match months with
  | [] => some []
  | m :: ms =>
    match pyInt? m, pyInt? day with
    | some mi, some di =>
      match urlsForYear year ms patterns key day with
      | some rest => some (patterns.map (fun p => buildUrl p year mi di key) ++ rest)
      | none => none
    | _, _ => none

/-- Python `range(lo, hi + 1)` over integers: ascending, empty when
`hi + 1 ≤ lo`. -/
def intRange (lo hi : Int) : List Int := (List.range (hi + 1 - lo).toNat).map fun i : Nat => lo + (i : Int)

/-- The year loop of `url_generate`. -/
def urlsFromYears (years : List Int) (months patterns : List String) (key day : String) : Option (List String) :=
  match years with
  | [] => some []
  | y :: ys =>
    match urlsForYear y months patterns key day, urlsFromYears ys months patterns key day with
    | some a, some b => some (a ++ b)
    | _, _ => none

/-- `url_generate(year_start, year_end, list_months, url_base, key, day)`
from the source: iterate years ascending, months in list order, patterns
in list order; `none` models a `ValueError` escaping from `int(...)`. -/
def url_generate (year_start year_end : Int) (list_months url_base : List String) (key day : String) : Option (List String) :=
  urlsFromYears (intRange year_start year_end) list_months url_base key day

example : url_generate 2021 2021 ["01", "02"] ["https://x/{dataset-name}/{YYYY}/{MM}.zip"] "cig" "01"
    = some ["https://x/cig/2021/01.zip", "https://x/cig/2021/02.zip"] := by decide

example : url_generate 2021 2021 ["xx"] ["p"] "cig" "01" = none := by decide

example : url_generate 2021 2020 ["xx"] ["p"] "cig" "01" = some [] := by decide

example : formatInt (-3) 4 = "-003" := by decide

example : pyInt? "-12" = some (-12) := by decide

/-! ## Prefix normalization (`normalize_prefix`) -/

/-- Match of the anchored regex `^\d{8}-` against the first nine
characters (`\d` is modelled as an ASCII digit; the program's inputs are
ASCII file stems). -/
def leadingDateMatch : List Char → Bool
  | [a, b, c, d, e, f, g, h, i] =>
    a.isDigit && b.isDigit && c.isDigit && d.isDigit && e.isDigit && f.isDigit && g.isDigit && h.isDigit && (i == '-')
  | _ => false

/-- `re.sub(r'^\d{8}-', '', l)`: the anchored pattern matches at most
once, at the very start. -/
def stripLeadingDate (l : List Char) : List Char :=
  if leadingDateMatch (l.take 9) then l.drop 9 else l

/-- Match of the anchored regex `_\d{4}_\d{2}$` against the last eight
characters. -/
def trailingPeriodMatch : List Char → Bool
  | ['_', a, b, c, d, '_', e, f] =>
    a.isDigit && b.isDigit && c.isDigit && d.isDigit && e.isDigit && f.isDigit
  | _ => false

/-- `re.sub(r'_\d{4}_\d{2}$', '', l)`: the anchored pattern matches at
most once, at the very end. -/
def stripTrailingPeriod (l : List Char) : List Char :=
  if trailingPeriodMatch (l.drop (l.length - 8)) then l.take (l.length - 8) else l

/-- `normalize_prefix(file_stem)` from the source: first strip a leading
date stamp, then strip a trailing period stamp from the result. -/
def normalize_prefix (file_stem : String) : String :=
  ⟨stripTrailingPeriod (stripLeadingDate file_stem.data)⟩

example : normalize_prefix "20240115-bando_cig_2024_01" = "bando_cig" := by decide
example : normalize_prefix "bando_cig_2024_01" = "bando_cig" := by decide
example : normalize_prefix "bando_cig" = "bando_cig" := by decide
example : normalize_prefix "12345678-12345678-x" = "12345678-x" := by decide
example : normalize_prefix "12345678-x" = "x" := by decide

/-! ## CSV consolidation (`merge_csv_files`) -/

/-- `pathlib.PurePath.stem`: the name without its last suffix; the suffix
must start after position 0 and before the final character. -/
def lastDotAux : List Char → Nat → Option Nat
  | [], _ => none
  | c :: t, i =>
    match lastDotAux t (i + 1) with
    | some j => some j
    | none => if c = '.' then some i else none

def pyStem (name : String) : String :=
  match lastDotAux name.data 0 with
  | none => name
  | some i => if 0 < i ∧ i < name.data.length - 1 then ⟨name.data.take i⟩ else name

example : pyStem "a_2024_01.csv" = "a_2024_01" := by decide
example : pyStem ".csv" = ".csv" := by decide
example : pyStem "a.tar.csv" = "a.tar" := by decide

/-- Universal-newline translation performed by reading a file in text
mode: `\r\n` becomes `\n`, then any remaining lone `\r` becomes `\n`. -/
def univNewlines (s : String) : String := pySubst (pySubst s "\r\n" "\n") "\r" "\n"

/-- `sum(1 for _ in file)`: Python line iteration counts every
newline-terminated chunk plus a final unterminated chunk if nonempty. -/
def pyLineCount (s : String) : Nat :=
  s.data.count '\n' +
    match s.data.getLast? with
    | some c => if c = '\n' then 0 else 1
    | none => 0

example : pyLineCount "l1\nl2\n" = 2 := by decide
example : pyLineCount "l1\nl2" = 2 := by decide
example : pyLineCount "" = 0 := by decide

/-- `source_path.glob('*.csv')` selects the entries directly under the
source directory whose name ends in `.csv` (pathlib's glob is
case-sensitive on POSIX and does not special-case dot files). -/
def isCsvName (name : String) : Bool := ".csv".data.isSuffixOf name.data

/-- Lexicographic code-point order on strings as character lists, the
order by which Python sorts the globbed paths (they share the directory
part, so it is the order of the file names). -/
def charListLe : List Char → List Char → Bool
  | [], _ => true
  | _ :: _, [] => false
  | a :: as, b :: bs =>
    if a.toNat < b.toNat then true else if a.toNat = b.toNat then charListLe as bs else false

/-- The sort relation for `sorted(source_path.glob('*.csv'))` on
(name, content) entries. -/
def csvLe (a b : String × String) : Prop := charListLe a.1.data b.1.data = true

instance : DecidableRel csvLe := fun a b => instDecidableEqBool (charListLe a.1.data b.1.data) true

/-- `all_csv_files = sorted(source_path.glob('*.csv'))` (a source
directory is modelled by an existence flag and its plain files as
(name, text content) pairs). -/
structure SourceDir where
  isDir : Bool
  entries : List (String × String)

def sortedCsv (src : SourceDir) : List (String × String) :=
  List.insertionSort csvLe (src.entries.filter (fun f => isCsvName f.1))

/-- The summary value stored per prefix in the returned dict. -/
structure MergeResult where
  output_file : String
  files_merged : Nat
  lines : Nat
deriving DecidableEq

/-- The full observable effect of one `merge_csv_files` call:
whether `output_path.mkdir(parents=True, exist_ok=True)` ran, the warning
lines printed, the (file name, content) writes into the output directory
in order, and the returned summary dict as an ordered association list. -/
structure MergeEffect where
  mkdirCalled : Bool
  warnings : List String
  written : List (String × String)
  result : List (String × MergeResult)
deriving DecidableEq

/-- Python dict assignment `d[k] = v`: replace in place if the key
exists, else append (insertion order preserved). -/
def dictInsert (d : List (String × MergeResult)) (k : String) (v : MergeResult) : List (String × MergeResult) :=
  if d.any (fun e => e.1 == k) then d.map (fun e => if e.1 == k then (k, v) else e) else d ++ [(k, v)]

/-- The `for prefix_name in prefixes` loop of `merge_csv_files`:
skip a prefix with no matching file, otherwise write the concatenation of
the matched files (read in text mode) and record the summary. -/
def mergeLoop (output_dir : String) (all_csv_files : List (String × String)) : List String → MergeEffect → MergeEffect
  | [], acc => acc
  | pname :: rest, acc =>
    let matched_files := all_csv_files.filter (fun f => normalize_prefix (pyStem f.1) == pname)
    if matched_files = [] then mergeLoop output_dir all_csv_files rest acc
    else
      let output_file := pname ++ ".csv"
      let content := String.join (matched_files.map (fun f => univNewlines f.2))
      let lineCount := pyLineCount (univNewlines content)
      mergeLoop output_dir all_csv_files rest
        { acc with
          written := acc.written ++ [(output_file, content)],
          result := dictInsert acc.result pname
            { output_file := output_dir ++ "/" ++ output_file,
              files_merged := matched_files.length,
              lines := lineCount } }

/-- `merge_csv_files(source_dir, output_dir, prefixes)` from the source:
the output directory is created first, unconditionally; a missing source
directory or an empty prefix list warns and returns an empty dict. -/
def merge_csv_files (src : SourceDir) (source_dir output_dir : String) (prefixes : List String) : MergeEffect :=
  if src.isDir = false then
    { mkdirCalled := true,
      warnings := ["WARNING! Source directory " ++ source_dir ++ " does not exist."],
      written := [], result := [] }
  else if prefixes = [] then
    { mkdirCalled := true,
      warnings := ["WARNING! No prefixes provided for merging."],
      written := [], result := [] }
  else
    mergeLoop output_dir (sortedCsv src) prefixes
      { mkdirCalled := true, warnings := [], written := [], result := [] }

/-- Files whose normalized stem equals `pname`, in merge order. -/
def matchedFor (src : SourceDir) (pname : String) : List (String × String) :=
  (sortedCsv src).filter (fun f => normalize_prefix (pyStem f.1) == pname)

/-- The content written for a matched prefix. -/
def mergedContent (src : SourceDir) (pname : String) : String :=
  String.join ((matchedFor src pname).map (fun f => univNewlines f.2))

/-- Number of entries of the association list `d` with key `k`. -/
def countKey : List (String × MergeResult) → String → Nat
  | [], _ => 0
  | e :: t, k => (if e.1 == k then 1 else 0) + countKey t k

/-- Writing a file into a directory state: overwrite if present. -/
def upsert (st : List (String × String)) (name c : String) : List (String × String) :=
  if st.any (fun e => e.1 == name) then st.map (fun e => if e.1 == name then (name, c) else e) else st ++ [(name, c)]

/-- Apply a sequence of writes to a preexisting directory state. -/
def applyWrites (st ws : List (String × String)) : List (String × String) :=
  ws.foldl (fun acc w => upsert acc w.1 w.2) st

/-- Look a file up in a directory state. -/
def lookupName : List (String × String) → String → Option String
  | [], _ => none
  | e :: t, name => if e.1 == name then some e.2 else lookupName t name

example : merge_csv_files ⟨true, [("a_2024_01.csv", "l1\nl2\n"), ("a_2024_02.csv", "m1\nm2\nm3\n")]⟩ "src" "out" ["a"]
    = ⟨true, [], [("a.csv", "l1\nl2\nm1\nm2\nm3\n")], [("a", ⟨"out/a.csv", 2, 5⟩)]⟩ := by decide

example : merge_csv_files ⟨false, [("a_2024_01.csv", "x\n")]⟩ "src" "out" ["a"]
    = ⟨true, ["WARNING! Source directory src does not exist."], [], []⟩ := by decide

example : merge_csv_files ⟨true, [("a_2024_01.csv", "x\n")]⟩ "src" "out" []
    = ⟨true, ["WARNING! No prefixes provided for merging."], [], []⟩ := by decide

example : merge_csv_files ⟨true, [("b_2024_01.csv", "x\n")]⟩ "src" "out" ["a"]
    = ⟨true, [], [], []⟩ := by decide

/-! ## Lemmas about association lists and directory states -/

theorem countKey_map_upd (d : List (String × MergeResult)) (k : String) (v : MergeResult) (p : String) :
    countKey (d.map (fun e => if e.1 == k then (k, v) else e)) p = countKey d p := by
  induction d with
  | nil => rfl
  | cons e t ih =>
    simp only [List.map_cons, countKey, ih]
    congr 1
    by_cases he : (e.1 == k) = true
    · have hek : e.1 = k := by simpa using he
      simp [he, hek]
    · simp [he]

theorem countKey_append (d1 d2 : List (String × MergeResult)) (p : String) :
    countKey (d1 ++ d2) p = countKey d1 p + countKey d2 p := by
  induction d1 with
  | nil => simp [countKey]
  | cons e t ih => simp [countKey, ih]; omega

theorem countKey_pos_iff (d : List (String × MergeResult)) (k : String) :
    0 < countKey d k ↔ d.any (fun e => e.1 == k) = true := by
  induction d with
  | nil => simp [countKey]
  | cons e t ih =>
    by_cases he : (e.1 == k) = true
    · simp [countKey, he]
    · simp [countKey, he, ih]

theorem countKey_dictInsert (d : List (String × MergeResult)) (k : String) (v : MergeResult) (p : String) :
    countKey (dictInsert d k v) p = if p = k then max 1 (countKey d k) else countKey d p := by
  unfold dictInsert
  by_cases hany : d.any (fun e => e.1 == k) = true
  · rw [if_pos hany, countKey_map_upd]
    by_cases hpk : p = k
    · subst hpk
      have : 0 < countKey d p := (countKey_pos_iff d p).mpr hany
      rw [if_pos rfl]
      omega
    · rw [if_neg hpk]
  · rw [if_neg hany, countKey_append]
    have h0 : countKey d k = 0 := by
      by_contra hc
      exact hany ((countKey_pos_iff d k).mp (Nat.pos_of_ne_zero hc))
    by_cases hpk : p = k
    · subst hpk
      simp [countKey, h0]
    · have : (k == p) = false := by
        simp only [beq_eq_false_iff_ne, ne_eq]
        exact fun h => hpk h.symm
      simp [countKey, this, hpk]

theorem mem_dictInsert (d : List (String × MergeResult)) (k : String) (v : MergeResult)
    (p : String) (r : MergeResult) :
    (p, r) ∈ dictInsert d k v → (p, r) ∈ d ∨ (p = k ∧ r = v) := by
  unfold dictInsert
  by_cases hany : d.any (fun e => e.1 == k) = true
  · rw [if_pos hany]
    intro hmem
    obtain ⟨e, he, hfe⟩ := List.mem_map.mp hmem
    by_cases hek : (e.1 == k) = true
    · rw [if_pos hek] at hfe
      injection hfe with h1 h2
      exact Or.inr ⟨h1.symm, h2.symm⟩
    · rw [if_neg hek] at hfe
      exact Or.inl (hfe ▸ he)
  · rw [if_neg hany]
    intro hmem
    rcases List.mem_append.mp hmem with h | h
    · exact Or.inl h
    · rcases List.mem_singleton.mp h with h2
      exact Or.inr ⟨congrArg Prod.fst h2, congrArg Prod.snd h2⟩

theorem lookupName_updMap (st : List (String × String)) (n c : String)
    (hany : st.any (fun e => e.1 == n) = true) :
    lookupName (st.map (fun e => if e.1 == n then (n, c) else e)) n = some c := by
  induction st with
  | nil => simp at hany
  | cons e t ih =>
    simp only [List.map_cons]
    by_cases he : (e.1 == n) = true
    · rw [if_pos he]
      simp [lookupName]
    · have h2 : t.any (fun x => x.1 == n) = true := by
        simpa [List.any_cons, he] using hany
      rw [if_neg he]
      simp only [lookupName]
      rw [if_neg he]
      exact ih h2

theorem lookupName_append_single (st : List (String × String)) (n c : String)
    (hnone : st.any (fun e => e.1 == n) = false) :
    lookupName (st ++ [(n, c)]) n = some c := by
  induction st with
  | nil => simp [lookupName]
  | cons e t ih =>
    simp only [List.any_cons, Bool.or_eq_false_iff] at hnone
    simp only [List.cons_append, lookupName]
    rw [if_neg (show ¬(e.1 == n) = true by simp [hnone.1])]
    exact ih hnone.2

theorem lookupName_upsert_self (st : List (String × String)) (n c : String) :
    lookupName (upsert st n c) n = some c := by
  unfold upsert
  by_cases hany : st.any (fun e => e.1 == n) = true
  · rw [if_pos hany]
    exact lookupName_updMap st n c hany
  · rw [if_neg hany]
    exact lookupName_append_single st n c (Bool.eq_false_iff.mpr hany)

theorem lookupName_updMap_other (st : List (String × String)) (n c m : String) (hmn : m ≠ n) :
    lookupName (st.map (fun e => if e.1 == n then (n, c) else e)) m = lookupName st m := by
  have hnm : (n == m) = false := by
    simp only [beq_eq_false_iff_ne, ne_eq]
    exact fun h => hmn h.symm
  induction st with
  | nil => rfl
  | cons e t ih =>
    simp only [List.map_cons]
    by_cases he : (e.1 == n) = true
    · have hek : e.1 = n := by simpa using he
      have hem : (e.1 == m) = false := by
        simp only [beq_eq_false_iff_ne, ne_eq, hek]
        exact fun h => hmn h.symm
      rw [if_pos he]
      simp only [lookupName]
      rw [if_neg (show ¬((n, c).1 == m) = true by simp [hnm]), ih,
        if_neg (show ¬(e.1 == m) = true by simp [hem])]
    · rw [if_neg he]
      simp only [lookupName]
      rw [ih]

theorem lookupName_append_single_other (st : List (String × String)) (n c m : String) (hmn : m ≠ n) :
    lookupName (st ++ [(n, c)]) m = lookupName st m := by
  have hnm : (n == m) = false := by
    simp only [beq_eq_false_iff_ne, ne_eq]
    exact fun h => hmn h.symm
  induction st with
  | nil => simp [lookupName, hnm]
  | cons e t ih =>
    by_cases hem : (e.1 == m) = true
    · simp [lookupName, hem]
    · simp [lookupName, hem, ih]

theorem lookupName_upsert_other (st : List (String × String)) (n c m : String) (hmn : m ≠ n) :
    lookupName (upsert st n c) m = lookupName st m := by
  unfold upsert
  by_cases hany : st.any (fun e => e.1 == n) = true
  · rw [if_pos hany]
    exact lookupName_updMap_other st n c m hmn
  · rw [if_neg hany]
    exact lookupName_append_single_other st n c m hmn

/-! ## Lemmas about the merge loop -/

/-- Files of the enumeration matching a given prefix. -/
def matchedOf (all : List (String × String)) (q : String) : List (String × String) :=
  all.filter (fun f => normalize_prefix (pyStem f.1) == q)

/-- The content written for a matched prefix of the enumeration. -/
def contentOf (all : List (String × String)) (q : String) : String :=
  String.join ((matchedOf all q).map (fun f => univNewlines f.2))

/-- The summary recorded for a matched prefix of the enumeration. -/
def mkResult (od : String) (all : List (String × String)) (q : String) : MergeResult :=
  { output_file := od ++ "/" ++ (q ++ ".csv"),
    files_merged := (matchedOf all q).length,
    lines := pyLineCount (univNewlines (contentOf all q)) }

theorem mergeLoop_cons_skip (od : String) (all : List (String × String)) (q : String)
    (rest : List String) (acc : MergeEffect) (hq : matchedOf all q = []) :
    mergeLoop od all (q :: rest) acc = mergeLoop od all rest acc := by
  simp only [mergeLoop]
  split
  · rfl
  · next h => exact absurd hq h

theorem mergeLoop_cons_step (od : String) (all : List (String × String)) (q : String)
    (rest : List String) (acc : MergeEffect) (hq : ¬ matchedOf all q = []) :
    mergeLoop od all (q :: rest) acc = mergeLoop od all rest
      { acc with
        written := acc.written ++ [(q ++ ".csv", contentOf all q)],
        result := dictInsert acc.result q (mkResult od all q) } := by
  simp only [mergeLoop]
  split
  · next h => exact absurd h hq
  · rfl

theorem mergeLoop_written_mono (od : String) (all : List (String × String)) :
    ∀ (rest : List String) (acc : MergeEffect) (e : String × String),
      e ∈ acc.written → e ∈ (mergeLoop od all rest acc).written := by
  intro rest
  induction rest with
  | nil => exact fun acc e he => he
  | cons q rest ih =>
    intro acc e he
    by_cases hq : matchedOf all q = []
    · rw [mergeLoop_cons_skip od all q rest acc hq]
      exact ih acc e he
    · rw [mergeLoop_cons_step od all q rest acc hq]
      exact ih _ e (List.mem_append_left _ he)

theorem mergeLoop_written_of_mem (od : String) (all : List (String × String)) :
    ∀ (rest : List String) (acc : MergeEffect) (p : String), p ∈ rest → matchedOf all p ≠ [] →
      (p ++ ".csv", contentOf all p) ∈ (mergeLoop od all rest acc).written := by
  intro rest
  induction rest with
  | nil => exact fun acc p hp _ => absurd hp (List.not_mem_nil p)
  | cons q rest ih =>
    intro acc p hp hmp
    rcases List.mem_cons.mp hp with hpq | hp'
    · subst hpq
      rw [mergeLoop_cons_step od all p rest acc hmp]
      exact mergeLoop_written_mono od all rest _ _ (List.mem_append_right _ (List.mem_singleton.mpr rfl))
    · by_cases hq : matchedOf all q = []
      · rw [mergeLoop_cons_skip od all q rest acc hq]
        exact ih acc p hp' hmp
      · rw [mergeLoop_cons_step od all q rest acc hq]
        exact ih _ p hp' hmp

theorem mergeLoop_written_all (od : String) (all : List (String × String)) :
    ∀ (rest : List String) (acc : MergeEffect) (e : String × String),
      e ∈ (mergeLoop od all rest acc).written →
      e ∈ acc.written ∨ ∃ q, q ∈ rest ∧ matchedOf all q ≠ [] ∧ e = (q ++ ".csv", contentOf all q) := by
  intro rest
  induction rest with
  | nil => exact fun acc e he => Or.inl he
  | cons q rest ih =>
    intro acc e he
    by_cases hq : matchedOf all q = []
    · rw [mergeLoop_cons_skip od all q rest acc hq] at he
      rcases ih acc e he with h | ⟨q', h1, h2, h3⟩
      · exact Or.inl h
      · exact Or.inr ⟨q', List.mem_cons_of_mem _ h1, h2, h3⟩
    · rw [mergeLoop_cons_step od all q rest acc hq] at he
      rcases ih _ e he with h | ⟨q', h1, h2, h3⟩
      · have h' : e ∈ acc.written ++ [(q ++ ".csv", contentOf all q)] := h
        rcases List.mem_append.mp h' with h2 | h2
        · exact Or.inl h2
        · exact Or.inr ⟨q, List.mem_cons_self q rest, hq, List.mem_singleton.mp h2⟩
      · exact Or.inr ⟨q', List.mem_cons_of_mem _ h1, h2, h3⟩

theorem mergeLoop_result_all (od : String) (all : List (String × String)) :
    ∀ (rest : List String) (acc : MergeEffect) (p : String) (r : MergeResult),
      (p, r) ∈ (mergeLoop od all rest acc).result →
      (p, r) ∈ acc.result ∨ (p ∈ rest ∧ matchedOf all p ≠ [] ∧ r = mkResult od all p) := by
  intro rest
  induction rest with
  | nil => exact fun acc p r h => Or.inl h
  | cons q rest ih =>
    intro acc p r hmem
    by_cases hq : matchedOf all q = []
    · rw [mergeLoop_cons_skip od all q rest acc hq] at hmem
      rcases ih acc p r hmem with h | ⟨h1, h2, h3⟩
      · exact Or.inl h
      · exact Or.inr ⟨List.mem_cons_of_mem _ h1, h2, h3⟩
    · rw [mergeLoop_cons_step od all q rest acc hq] at hmem
      rcases ih _ p r hmem with h | ⟨h1, h2, h3⟩
      · have h' : (p, r) ∈ dictInsert acc.result q (mkResult od all q) := h
        rcases mem_dictInsert _ _ _ _ _ h' with h2 | ⟨hpq, hr⟩
        · exact Or.inl h2
        · subst hpq
          exact Or.inr ⟨List.mem_cons_self p rest, hq, hr⟩
      · exact Or.inr ⟨List.mem_cons_of_mem _ h1, h2, h3⟩

theorem mergeLoop_countKey (od : String) (all : List (String × String)) :
    ∀ (rest : List String) (acc : MergeEffect), (∀ k, countKey acc.result k ≤ 1) → ∀ (p : String),
      countKey (mergeLoop od all rest acc).result p =
        if p ∈ rest ∧ matchedOf all p ≠ [] then 1 else countKey acc.result p := by
  intro rest
  induction rest with
  | nil =>
    intro acc _ p
    simp [mergeLoop]
  | cons q rest ih =>
    intro acc hle p
    by_cases hq : matchedOf all q = []
    · rw [mergeLoop_cons_skip od all q rest acc hq, ih acc hle p]
      by_cases hpq : p = q
      · subst hpq
        simp [hq]
      · have hmem : (p ∈ q :: rest) = (p ∈ rest) := by simp [List.mem_cons, hpq]
        simp only [hmem]
    · rw [mergeLoop_cons_step od all q rest acc hq]
      have hle2 : ∀ k, countKey (dictInsert acc.result q (mkResult od all q)) k ≤ 1 := by
        intro k
        rw [countKey_dictInsert]
        split
        · have := hle q
          omega
        · exact hle k
      rw [ih _ (fun k => hle2 k) p]
      show (if p ∈ rest ∧ matchedOf all p ≠ [] then 1
        else countKey (dictInsert acc.result q (mkResult od all q)) p) =
        if p ∈ q :: rest ∧ matchedOf all p ≠ [] then 1 else countKey acc.result p
      rw [countKey_dictInsert]
      by_cases hpq : p = q
      · subst hpq
        have hmax : max 1 (countKey acc.result p) = 1 := by
          have := hle p
          omega
        rw [if_pos (⟨List.mem_cons_self p rest, hq⟩ : p ∈ p :: rest ∧ matchedOf all p ≠ [])]
        by_cases hpr : p ∈ rest ∧ matchedOf all p ≠ []
        · rw [if_pos hpr]
        · rw [if_neg hpr, if_pos rfl, hmax]
      · rw [if_neg hpq]
        have hmem : (p ∈ q :: rest) = (p ∈ rest) := by simp [List.mem_cons, hpq]
        simp only [hmem]

theorem applyWrites_no_touch : ∀ (ws prev : List (String × String)) (n : String),
    (∀ e ∈ ws, e.1 ≠ n) → lookupName (applyWrites prev ws) n = lookupName prev n := by
  intro ws
  induction ws with
  | nil => exact fun prev n _ => rfl
  | cons w ws ih =>
    intro prev n hne
    show lookupName (applyWrites (upsert prev w.1 w.2) ws) n = _
    rw [ih _ n (fun e he => hne e (List.mem_cons_of_mem _ he))]
    exact lookupName_upsert_other prev w.1 w.2 n (hne w (List.mem_cons_self w ws)).symm

theorem lookup_applyWrites : ∀ (ws prev : List (String × String)) (n c : String),
    (∀ e ∈ ws, e.1 = n → e.2 = c) → (∃ e ∈ ws, e.1 = n) →
    lookupName (applyWrites prev ws) n = some c := by
  intro ws
  induction ws with
  | nil =>
    intro prev n c _ hex
    obtain ⟨e, he, _⟩ := hex
    exact absurd he (List.not_mem_nil e)
  | cons w ws ih =>
    intro prev n c hall hex
    show lookupName (applyWrites (upsert prev w.1 w.2) ws) n = some c
    by_cases hws : ∃ e ∈ ws, e.1 = n
    · exact ih _ n c (fun e he hen => hall e (List.mem_cons_of_mem _ he) hen) hws
    · obtain ⟨e, he, hen⟩ := hex
      rcases List.mem_cons.mp he with rfl | he'
      · have hnone : ∀ e2 ∈ ws, e2.1 ≠ n := fun e2 he2 hn => hws ⟨e2, he2, hn⟩
        rw [applyWrites_no_touch ws (upsert prev e.1 e.2) n hnone]
        have hc : e.2 = c := hall e (List.mem_cons_self e ws) hen
        rw [← hen, ← hc]
        exact lookupName_upsert_self prev e.1 e.2
      · exact absurd ⟨e, he', hen⟩ hws

theorem append_csv_inj (q p : String) (h : q ++ ".csv" = p ++ ".csv") : q = p := by
  have hd : q.data ++ ".csv".data = p.data ++ ".csv".data := congrArg String.data h
  have hqp : q.data = p.data := List.append_cancel_right hd
  cases q
  cases p
  exact congrArg String.mk hqp

/-! ## Order facts for the sorted enumeration -/

theorem charListLe_total : ∀ (a b : List Char), charListLe a b = true ∨ charListLe b a = true := by
  intro a
  induction a with
  | nil => exact fun b => Or.inl rfl
  | cons x xs ih =>
    intro b
    cases b with
    | nil => exact Or.inr rfl
    | cons y ys =>
      rcases Nat.lt_trichotomy x.toNat y.toNat with h | h | h
      · left
        simp [charListLe, h]
      · rcases ih ys with h2 | h2
        · left
          simp [charListLe, h, h2]
        · right
          simp [charListLe, h, h2]
      · right
        simp [charListLe, h]

theorem charListLe_trans : ∀ (a b c : List Char),
    charListLe a b = true → charListLe b c = true → charListLe a c = true := by
  intro a
  induction a with
  | nil => intro b c _ _; rfl
  | cons x xs ih =>
    intro b c hab hbc
    cases b with
    | nil => simp [charListLe] at hab
    | cons y ys =>
      cases c with
      | nil => simp [charListLe] at hbc
      | cons z zs =>
        simp only [charListLe] at hab hbc ⊢
        have hab' : x.toNat < y.toNat ∨ (x.toNat = y.toNat ∧ charListLe xs ys = true) := by
          by_cases h1 : x.toNat < y.toNat
          · exact Or.inl h1
          · by_cases h3 : x.toNat = y.toNat
            · refine Or.inr ⟨h3, ?_⟩
              simpa [h1, h3] using hab
            · simp [h1, h3] at hab
        have hbc' : y.toNat < z.toNat ∨ (y.toNat = z.toNat ∧ charListLe ys zs = true) := by
          by_cases h1 : y.toNat < z.toNat
          · exact Or.inl h1
          · by_cases h3 : y.toNat = z.toNat
            · refine Or.inr ⟨h3, ?_⟩
              simpa [h1, h3] using hbc
            · simp [h1, h3] at hbc
        rcases hab' with h | ⟨h, hxs⟩ <;> rcases hbc' with h2 | ⟨h2, hys⟩
        · have hlt : x.toNat < z.toNat := by omega
          simp [hlt]
        · have hlt : x.toNat < z.toNat := by omega
          simp [hlt]
        · have hlt : x.toNat < z.toNat := by omega
          simp [hlt]
        · have heq : x.toNat = z.toNat := by omega
          simp [heq, ih ys zs hxs hys]

instance : IsTotal (String × String) csvLe :=
  ⟨fun a b => charListLe_total a.1.data b.1.data⟩

instance : IsTrans (String × String) csvLe :=
  ⟨fun a b c => charListLe_trans a.1.data b.1.data c.1.data⟩

/-! ## Lemmas about `url_generate` -/

theorem urlsForYear_length (year : Int) (patterns : List String) (key day : String) :
    ∀ (months : List String), (∀ m ∈ months, (pyInt? m).isSome = true) →
      (months = [] ∨ (pyInt? day).isSome = true) →
      ∃ l, urlsForYear year months patterns key day = some l ∧
        l.length = months.length * patterns.length := by
  intro months
  induction months with
  | nil => exact fun _ _ => ⟨[], rfl, by simp⟩
  | cons m ms ih =>
    intro hm hd
    have hday : (pyInt? day).isSome = true := hd.resolve_left (by simp)
    obtain ⟨mi, hmi⟩ := Option.isSome_iff_exists.mp (hm m (by simp))
    obtain ⟨di, hdi⟩ := Option.isSome_iff_exists.mp hday
    obtain ⟨rest, hrest, hlen⟩ := ih (fun x hx => hm x (by simp [hx])) (Or.inr hday)
    refine ⟨patterns.map (fun p => buildUrl p year mi di key) ++ rest, ?_, ?_⟩
    · simp [urlsForYear, hmi, hdi, hrest]
    · simp [hlen, Nat.succ_mul, Nat.add_comm]

theorem urlsFromYears_length (months patterns : List String) (key day : String)
    (hm : ∀ m ∈ months, (pyInt? m).isSome = true)
    (hd : months = [] ∨ (pyInt? day).isSome = true) :
    ∀ (years : List Int), ∃ l, urlsFromYears years months patterns key day = some l ∧
      l.length = years.length * months.length * patterns.length := by
  intro years
  induction years with
  | nil => exact ⟨[], rfl, by simp⟩
  | cons y ys ih =>
    obtain ⟨a, ha, halen⟩ := urlsForYear_length y patterns key day months hm hd
    obtain ⟨b, hb, hblen⟩ := ih
    refine ⟨a ++ b, ?_, ?_⟩
    · simp [urlsFromYears, ha, hb]
    · simp [halen, hblen, Nat.succ_mul, Nat.add_comm, Nat.add_mul]

theorem intRange_length (lo hi : Int) : (intRange lo hi).length = (hi + 1 - lo).toNat := by
  rw [intRange, List.length_map, List.length_range]

theorem urlsForYear_eq (year : Int) (patterns : List String) (key day : String)
    (hday : (pyInt? day).isSome = true) :
    ∀ (months : List String), (∀ m ∈ months, (pyInt? m).isSome = true) →
      urlsForYear year months patterns key day =
        some (months.flatMap fun m => patterns.map fun p => buildUrl p year (pyIntD m) (pyIntD day) key) := by
  intro months
  induction months with
  | nil => exact fun _ => rfl
  | cons m ms ih =>
    intro hm
    obtain ⟨mi, hmi⟩ := Option.isSome_iff_exists.mp (hm m (by simp))
    obtain ⟨di, hdi⟩ := Option.isSome_iff_exists.mp hday
    have h2 := ih (fun x hx => hm x (by simp [hx]))
    simp [urlsForYear, hmi, hdi, h2, pyIntD]

theorem urlsFromYears_eq (months patterns : List String) (key day : String)
    (hm : ∀ m ∈ months, (pyInt? m).isSome = true) (hday : (pyInt? day).isSome = true) :
    ∀ (years : List Int), urlsFromYears years months patterns key day =
      some (years.flatMap fun y => months.flatMap fun m => patterns.map fun p => buildUrl p y (pyIntD m) (pyIntD day) key) := by
  intro years
  induction years with
  | nil => rfl
  | cons y ys ih => simp [urlsFromYears, urlsForYear_eq y patterns key day hday months hm, ih]

/-! ## Claim C1 -/

/-- C1: as stated the claim is false: `url_generate` raises a
`ValueError` (modelled `none`) when a month does not parse as an integer,
so with `year_start <= year_end` a list of the stated length is not
always returned. -/
theorem c1_counterexample :
    ¬ ∃ l, url_generate 2021 2021 ["xx"] ["p"] "cig" "01" = some l ∧ l.length = 1 := by
  have h0 : url_generate 2021 2021 ["xx"] ["p"] "cig" "01" = none := by decide
  rintro ⟨l, hl, -⟩
  rw [h0] at hl
  exact Option.noConfusion hl

/-- C1 (amended): provided every month in the list parses as an integer
and, when the month list is nonempty, the day does as well, then for
`year_start <= year_end` the returned list has length
`(year_end - year_start + 1) * |months| * |patterns|`; and for
`year_start > year_end` the returned list is empty and no error is
raised. -/
theorem c1_url_generate_length (ys ye : Int) (months patterns : List String) (key day : String) :
    (ys ≤ ye → (∀ m ∈ months, (pyInt? m).isSome = true) →
      (months = [] ∨ (pyInt? day).isSome = true) →
      ∃ l, url_generate ys ye months patterns key day = some l ∧
        l.length = (ye - ys + 1).toNat * months.length * patterns.length) ∧
    (ye < ys → url_generate ys ye months patterns key day = some []) := by
  constructor
  · intro _ hm hd
    obtain ⟨l, hl, hlen⟩ := urlsFromYears_length months patterns key day hm hd (intRange ys ye)
    refine ⟨l, hl, ?_⟩
    rw [hlen, intRange_length]
    congr 2
    omega
  · intro h
    have h0 : (ye + 1 - ys).toNat = 0 := by omega
    simp [url_generate, intRange, h0, urlsFromYears]

theorem c1_witness :
    ∃ l, url_generate 2021 2022 ["01"] ["https://x/{YYYY}.zip"] "cig" "01" = some l ∧ l.length = 2 :=
  (c1_url_generate_length 2021 2022 ["01"] ["https://x/{YYYY}.zip"] "cig" "01").1
    (by decide) (by decide) (by decide)

/-! ## Claim C2 -/

/-- C2: the concrete expansion returns exactly the two expected URLs in
order; in general, under parseable months and day, the output is the
year-ascending, month-in-list-order, pattern-in-list-order enumeration of
`buildUrl`, which substitutes `{YYYY}` with the zero-padded 4-digit year,
`{MM}` and `{DD}` with the zero-padded 2-digit integer values of month
and day, and `{dataset-name}` with the key. -/
theorem c2_url_generate_order :
    url_generate 2021 2021 ["01", "02"] ["https://x/{dataset-name}/{YYYY}/{MM}.zip"] "cig" "01"
      = some ["https://x/cig/2021/01.zip", "https://x/cig/2021/02.zip"] ∧
    ∀ (ys ye : Int) (months patterns : List String) (key day : String),
      (∀ m ∈ months, (pyInt? m).isSome = true) → (pyInt? day).isSome = true →
      url_generate ys ye months patterns key day =
        some ((intRange ys ye).flatMap fun y =>
          months.flatMap fun m => patterns.map fun p => buildUrl p y (pyIntD m) (pyIntD day) key) := by
  constructor
  · decide
  · intro ys ye months patterns key day hm hday
    exact urlsFromYears_eq months patterns key day hm hday (intRange ys ye)

theorem c2_witness :
    url_generate 2020 2021 ["1"] ["{MM}"] "k" "3" =
      some ((intRange 2020 2021).flatMap fun y =>
        ["1"].flatMap fun m => ["{MM}"].map fun p => buildUrl p y (pyIntD m) (pyIntD "3") "k") :=
  c2_url_generate_order.2 2020 2021 ["1"] ["{MM}"] "k" "3" (by decide) (by decide)

/-! ## Claim C3 -/

/-- C3: as stated the claim is false: normalization is not idempotent on
a stem that carries two leading date stamps, since each pass strips one. -/
theorem c3_counterexample :
    normalize_prefix ( normalize_prefix "12345678-12345678-x") ≠ normalize_prefix "12345678-12345678-x" := by
  decide

/-- C3 (amended): normalization is idempotent on every input whose first
normalization neither starts with a leading date stamp nor ends with a
trailing period stamp. -/
theorem c3_normalize_idempotent (x : String)
    (h1 : leadingDateMatch (( normalize_prefix x).data.take 9) = false)
    (h2 : trailingPeriodMatch (( normalize_prefix x).data.drop (( normalize_prefix x).data.length - 8)) = false) :
    normalize_prefix ( normalize_prefix x) = normalize_prefix x := by
  have h1' : ¬ leadingDateMatch (( normalize_prefix x).data.take 9) = true := by
    rw [h1]; exact Bool.false_ne_true
  have h2' : ¬ trailingPeriodMatch (( normalize_prefix x).data.drop (( normalize_prefix x).data.length - 8)) = true := by
    rw [h2]; exact Bool.false_ne_true
  have e1 : stripLeadingDate ( normalize_prefix x).data = ( normalize_prefix x).data := by
    unfold stripLeadingDate; rw [if_neg h1']
  have e2 : stripTrailingPeriod ( normalize_prefix x).data = ( normalize_prefix x).data := by
    unfold stripTrailingPeriod; rw [if_neg h2']
  show (⟨stripTrailingPeriod (stripLeadingDate ( normalize_prefix x).data)⟩ : String) = normalize_prefix x
  rw [e1, e2]

theorem c3_witness :
    normalize_prefix ( normalize_prefix "bando_cig_2024_01") = normalize_prefix "bando_cig_2024_01" :=
  c3_normalize_idempotent "bando_cig_2024_01" (by decide) (by decide)

/-! ## Claim C4 -/

/-- C4: `normalize_prefix` strips a leading block of exactly 8 digits
followed by a hyphen when present (and only then), strips a trailing
underscore + 4 digits + underscore + 2 digits when present (and only
then), applies the two rewrites one after the other regardless of
whether the other matched, and maps the three reference stems as the
spec states. -/
theorem c4_normalize_rewrites :
    normalize_prefix "20240115-bando_cig_2024_01" = "bando_cig" ∧
    normalize_prefix "bando_cig_2024_01" = "bando_cig" ∧
    normalize_prefix "bando_cig" = "bando_cig" ∧
    (∀ (d8 rest : List Char), d8.length = 8 → (∀ c ∈ d8, c.isDigit = true) →
      stripLeadingDate (d8 ++ '-' :: rest) = rest) ∧
    (∀ l, leadingDateMatch (l.take 9) = false → stripLeadingDate l = l) ∧
    (∀ (body y4 m2 : List Char), y4.length = 4 → (∀ c ∈ y4, c.isDigit = true) →
      m2.length = 2 → (∀ c ∈ m2, c.isDigit = true) →
      stripTrailingPeriod (body ++ '_' :: (y4 ++ '_' :: m2)) = body) ∧
    (∀ l, trailingPeriodMatch (l.drop (l.length - 8)) = false → stripTrailingPeriod l = l) ∧
    (∀ s, normalize_prefix s = ⟨stripTrailingPeriod (stripLeadingDate s.data)⟩) := by
  refine ⟨by decide, by decide, by decide, ?_, ?_, ?_, ?_, fun s => rfl⟩
  · intro d8 rest hlen hdig
    rcases d8 with _ | ⟨a1, _ | ⟨a2, _ | ⟨a3, _ | ⟨a4, _ | ⟨a5, _ | ⟨a6, _ | ⟨a7, _ | ⟨a8, _ | ⟨a9, tl⟩⟩⟩⟩⟩⟩⟩⟩⟩
    all_goals simp only [List.length_cons, List.length_nil] at hlen
    all_goals try (exfalso; omega)
    simp only [List.cons_append, List.nil_append]
    unfold stripLeadingDate
    have ht : List.take 9 (a1 :: a2 :: a3 :: a4 :: a5 :: a6 :: a7 :: a8 :: '-' :: rest)
        = [a1, a2, a3, a4, a5, a6, a7, a8, '-'] := rfl
    have hd9 : List.drop 9 (a1 :: a2 :: a3 :: a4 :: a5 :: a6 :: a7 :: a8 :: '-' :: rest) = rest := rfl
    rw [ht, hd9]
    have hm : leadingDateMatch [a1, a2, a3, a4, a5, a6, a7, a8, '-'] = true := by
      simp only [leadingDateMatch]
      simp [hdig a1 (by simp), hdig a2 (by simp), hdig a3 (by simp), hdig a4 (by simp),
        hdig a5 (by simp), hdig a6 (by simp), hdig a7 (by simp), hdig a8 (by simp)]
    simp [hm]
  · intro l h
    simp [stripLeadingDate, h]
  · intro body y4 m2 hy4 hy4d hm2 hm2d
    rcases y4 with _ | ⟨q1, _ | ⟨q2, _ | ⟨q3, _ | ⟨q4, _ | ⟨q5, tl⟩⟩⟩⟩⟩
    all_goals simp only [List.length_cons, List.length_nil] at hy4
    all_goals try (exfalso; omega)
    rcases m2 with _ | ⟨u1, _ | ⟨u2, _ | ⟨u3, tl2⟩⟩⟩
    all_goals simp only [List.length_cons, List.length_nil] at hm2
    all_goals try (exfalso; omega)
    have e : (body ++ '_' :: ([q1, q2, q3, q4] ++ '_' :: [u1, u2])).length - 8 = body.length := by
      simp only [List.length_append, List.length_cons, List.length_nil]
      omega
    unfold stripTrailingPeriod
    have hsuf : ('_' :: ([q1, q2, q3, q4] ++ '_' :: [u1, u2])) = ['_', q1, q2, q3, q4, '_', u1, u2] := rfl
    rw [e, List.drop_left, List.take_left, hsuf]
    have hm : trailingPeriodMatch ['_', q1, q2, q3, q4, '_', u1, u2] = true := by
      simp only [trailingPeriodMatch]
      simp [hy4d q1 (by simp), hy4d q2 (by simp), hy4d q3 (by simp), hy4d q4 (by simp),
        hm2d u1 (by simp), hm2d u2 (by simp)]
    simp [hm]
  · intro l h
    simp [stripTrailingPeriod, h]

theorem c4_witness : stripLeadingDate ("20240115".data ++ '-' :: "x".data) = "x".data :=
  c4_normalize_rewrites.2.2.2.1 "20240115".data "x".data (by decide) (by decide)

/-! ## Claim C5 -/

/-- C5: a missing source directory, or an empty prefix list with an
existing source directory, yields an empty mapping with a warning
emitted, and is not fatal (the model is a total function: no exception
path exists in these branches). -/
theorem c5_degenerate_cases (src : SourceDir) (sd od : String) (prefixes : List String) :
    (src.isDir = false →
      (merge_csv_files src sd od prefixes).result = [] ∧
      (merge_csv_files src sd od prefixes).warnings ≠ []) ∧
    (src.isDir = true → prefixes = [] →
      (merge_csv_files src sd od prefixes).result = [] ∧
      (merge_csv_files src sd od prefixes).warnings ≠ []) := by
  constructor
  · intro h
    simp [merge_csv_files, h]
  · intro h hp
    subst hp
    simp [merge_csv_files, h]

theorem c5_witness :
    (merge_csv_files ⟨false, []⟩ "s" "o" ["a"]).result = [] ∧
    (merge_csv_files ⟨false, []⟩ "s" "o" ["a"]).warnings ≠ [] :=
  (c5_degenerate_cases ⟨false, []⟩ "s" "o" ["a"]).1 rfl

/-! ## Claim C6 -/

/-- C6: for an existing source directory the returned mapping has exactly
one entry, keyed by the prefix, for every requested prefix matched by at
least one CSV file of the source directory, and no entry at all for a
requested prefix matched by no file (and for keys never requested). -/
theorem c6_result_keys (src : SourceDir) (sd od : String) (prefixes : List String) (p : String)
    (hdir : src.isDir = true) :
    countKey (merge_csv_files src sd od prefixes).result p =
      if p ∈ prefixes ∧ matchedFor src p ≠ [] then 1 else 0 := by
  unfold merge_csv_files
  rw [if_neg (by simp [hdir])]
  by_cases hp : prefixes = []
  · rw [if_pos hp]
    subst hp
    simp [countKey]
  · rw [if_neg hp]
    rw [mergeLoop_countKey od (sortedCsv src) prefixes ⟨true, [], [], []⟩ (fun k => Nat.zero_le 1) p]
    rfl

theorem c6_witness :
    countKey (merge_csv_files ⟨true, [("a_2024_01.csv", "x\n")]⟩ "s" "o" ["a", "b"]).result "a" = 1 ∧
    countKey (merge_csv_files ⟨true, [("a_2024_01.csv", "x\n")]⟩ "s" "o" ["a", "b"]).result "b" = 0 :=
  ⟨(c6_result_keys ⟨true, [("a_2024_01.csv", "x\n")]⟩ "s" "o" ["a", "b"] "a" rfl).trans (by decide),
    (c6_result_keys ⟨true, [("a_2024_01.csv", "x\n")]⟩ "s" "o" ["a", "b"] "b" rfl).trans (by decide)⟩

/-! ## Claim C7 -/

/-- Either the call returned along a degenerate branch, or it ran the
merge loop from the empty accumulator. -/
theorem merge_shape (src : SourceDir) (sd od : String) (prefixes : List String) :
    (merge_csv_files src sd od prefixes).result = [] ∧ (merge_csv_files src sd od prefixes).written = [] ∨
    merge_csv_files src sd od prefixes = mergeLoop od (sortedCsv src) prefixes ⟨true, [], [], []⟩ := by
  unfold merge_csv_files
  split
  · exact Or.inl ⟨rfl, rfl⟩
  · split
    · exact Or.inl ⟨rfl, rfl⟩
    · exact Or.inr rfl

/-- C7: on the concrete two-file example the summary is exactly
`{"a": {output_file := "out/a.csv", files_merged := 2, lines := 5}}`; in
general every returned entry reports `files_merged` equal to the number
of source files concatenated for that prefix and `lines` equal to the
line count of the content written to that prefix's output file. -/
theorem c7_merge_summary :
    (merge_csv_files ⟨true, [("a_2024_01.csv", "l1\nl2\n"), ("a_2024_02.csv", "m1\nm2\nm3\n")]⟩ "src" "out" ["a"]).result
      = [("a", ⟨"out/a.csv", 2, 5⟩)] ∧
    ∀ (src : SourceDir) (sd od : String) (prefixes : List String) (p : String) (r : MergeResult),
      (p, r) ∈ (merge_csv_files src sd od prefixes).result →
      r.files_merged = (matchedFor src p).length ∧
      r.lines = pyLineCount (univNewlines (mergedContent src p)) ∧
      (p ++ ".csv", mergedContent src p) ∈ (merge_csv_files src sd od prefixes).written := by
  constructor
  · decide
  · intro src sd od prefixes p r hmem
    rcases merge_shape src sd od prefixes with ⟨hres, _⟩ | heq
    · rw [hres] at hmem
      exact absurd hmem (List.not_mem_nil _)
    · rw [heq] at hmem
      rcases mergeLoop_result_all od (sortedCsv src) prefixes ⟨true, [], [], []⟩ p r hmem with h | ⟨hp, hmp, hr⟩
      · exact absurd h (List.not_mem_nil _)
      · subst hr
        refine ⟨rfl, rfl, ?_⟩
        rw [heq]
        exact mergeLoop_written_of_mem od (sortedCsv src) prefixes _ p hp hmp

theorem c7_witness :
    (⟨"o/a.csv", 1, 2⟩ : MergeResult).files_merged
        = (matchedFor ⟨true, [("a_2024_01.csv", "l1\nl2\n")]⟩ "a").length ∧
    (⟨"o/a.csv", 1, 2⟩ : MergeResult).lines
        = pyLineCount (univNewlines (mergedContent ⟨true, [("a_2024_01.csv", "l1\nl2\n")]⟩ "a")) ∧
    ("a" ++ ".csv", mergedContent ⟨true, [("a_2024_01.csv", "l1\nl2\n")]⟩ "a")
        ∈ (merge_csv_files ⟨true, [("a_2024_01.csv", "l1\nl2\n")]⟩ "s" "o" ["a"]).written :=
  c7_merge_summary.2 ⟨true, [("a_2024_01.csv", "l1\nl2\n")]⟩ "s" "o" ["a"] "a" ⟨"o/a.csv", 1, 2⟩ (by decide)

/-! ## Claim C8 -/

/-- C8: as stated the claim is false on one point: the files are read
and written in text mode, so the written bytes are not always the raw
concatenation of the source bytes — a `\r\n` (or lone `\r`) in a source
file is decoded to `\n` before being written back. -/
theorem c8_counterexample :
    lookupName
      (applyWrites [] (merge_csv_files ⟨true, [("a_2024_01.csv", "x\r\ny")]⟩ "s" "o" ["a"]).written)
      ("a" ++ ".csv") ≠ some "x\r\ny" := by
  decide

/-- C8 (amended): the enumeration considered by `merge_csv_files`
consists exactly of the entries of the source directory whose name has
the `.csv` extension, in ascending lexicographic name order; and for
every matched prefix the file `<prefix>.csv` holds, after the call, the
concatenation of the full text of the matched files in that order,
whatever content the output directory previously had for it (overwrite),
with no transformation beyond universal-newline text decoding (no header
deduplication, no delimiter normalization). -/
theorem c8_enumeration_and_write (src : SourceDir) (sd od : String) (prefixes : List String)
    (prev : List (String × String)) (p : String) (hdir : src.isDir = true) :
    List.Sorted csvLe (sortedCsv src) ∧
    (∀ f, f ∈ sortedCsv src ↔ f ∈ src.entries ∧ isCsvName f.1 = true) ∧
    (p ∈ prefixes → matchedFor src p ≠ [] →
      lookupName (applyWrites prev (merge_csv_files src sd od prefixes).written) (p ++ ".csv")
        = some (mergedContent src p)) := by
  refine ⟨List.sorted_insertionSort csvLe _, ?_, ?_⟩
  · intro f
    rw [sortedCsv, (List.perm_insertionSort csvLe _).mem_iff, List.mem_filter]
  · intro hp hmp
    have hpne : prefixes ≠ [] := by
      intro h
      subst h
      exact absurd hp (List.not_mem_nil p)
    have heq : merge_csv_files src sd od prefixes
        = mergeLoop od (sortedCsv src) prefixes ⟨true, [], [], []⟩ := by
      unfold merge_csv_files
      rw [if_neg (by simp [hdir]), if_neg hpne]
    rw [heq]
    apply lookup_applyWrites
    · intro e he hen
      rcases mergeLoop_written_all od (sortedCsv src) prefixes _ e he with h | ⟨q, _, _, hq3⟩
      · exact absurd h (List.not_mem_nil _)
      · subst hq3
        have hqp : q = p := append_csv_inj q p hen
        rw [hqp]
        rfl
    · exact ⟨(p ++ ".csv", contentOf (sortedCsv src) p),
        mergeLoop_written_of_mem od (sortedCsv src) prefixes _ p hp hmp, rfl⟩

theorem c8_witness :
    lookupName
      (applyWrites [("a.csv", "old")]
        (merge_csv_files ⟨true, [("a_2024_01.csv", "x\n")]⟩ "s" "o" ["a"]).written)
      ("a" ++ ".csv") = some (mergedContent ⟨true, [("a_2024_01.csv", "x\n")]⟩ "a") :=
  (c8_enumeration_and_write ⟨true, [("a_2024_01.csv", "x\n")]⟩ "s" "o" ["a"] [("a.csv", "old")] "a" rfl).2.2
    (by decide) (by decide)

/-! ## Claim C9: substitution cannot introduce the dataset placeholder -/

/-- Shape of every string substituted for `{YYYY}`, `{MM}`, `{DD}`: a
first character that is a digit or a minus sign, followed by at least one
character, all digits. -/
def ReplShape (r : List Char) : Prop :=
  ∃ c cs, r = c :: cs ∧ cs ≠ [] ∧ (∀ x ∈ cs, x.isDigit = true) ∧ (c.isDigit = true ∨ c = '-')

theorem digitChar_isDigit (n : Nat) (h : n < 10) : (Nat.digitChar n).isDigit = true := by
  interval_cases n <;> decide

theorem natDigitsAux_digits : ∀ (fuel n : Nat), ∀ c ∈ natDigitsAux fuel n, c.isDigit = true := by
  intro fuel
  induction fuel with
  | zero =>
    intro n c hc
    simp [natDigitsAux] at hc
  | succ fuel ih =>
    intro n c hc
    by_cases h : n < 10
    · simp only [natDigitsAux, if_pos h, List.mem_singleton] at hc
      rw [hc]
      exact digitChar_isDigit n h
    · simp only [natDigitsAux, if_neg h, List.mem_append, List.mem_singleton] at hc
      rcases hc with hc | hc
      · exact ih (n / 10) c hc
      · rw [hc]
        exact digitChar_isDigit _ (Nat.mod_lt n (by omega))

theorem natDigits_digits (n : Nat) : ∀ c ∈ natDigits n, c.isDigit = true :=
  natDigitsAux_digits (n + 1) n

theorem natDigits_ne_nil (n : Nat) : natDigits n ≠ [] := by
  unfold natDigits
  by_cases h : n < 10
  · simp [natDigitsAux, h]
  · simp [natDigitsAux, h]

theorem shape_of_digits (l : List Char) (hlen : 2 ≤ l.length)
    (hdig : ∀ x ∈ l, x.isDigit = true) : ReplShape l := by
  cases l with
  | nil => simp at hlen
  | cons c cs =>
    refine ⟨c, cs, rfl, ?_, ?_, Or.inl (hdig c (List.mem_cons_self c cs))⟩
    · intro h
      subst h
      simp at hlen
    · exact fun x hx => hdig x (List.mem_cons_of_mem c hx)

theorem formatInt_shape (i : Int) (w : Nat) (hw : 2 ≤ w) : ReplShape (formatInt i w).data := by
  unfold formatInt
  by_cases hi : i < 0
  · rw [if_pos hi]
    show ReplShape ('-' :: (List.replicate (w - 1 - (natDigits i.natAbs).length) '0' ++ natDigits i.natAbs))
    refine ⟨'-', _, rfl, ?_, ?_, Or.inr rfl⟩
    · simp [natDigits_ne_nil]
    · intro x hx
      rcases List.mem_append.mp hx with h | h
      · rw [List.eq_of_mem_replicate h]
        decide
      · exact natDigits_digits _ x h
  · rw [if_neg hi]
    show ReplShape (List.replicate (w - (natDigits i.toNat).length) '0' ++ natDigits i.toNat)
    apply shape_of_digits
    · rw [List.length_append, List.length_replicate]
      have h1 : 1 ≤ (natDigits i.toNat).length := List.length_pos.mpr (natDigits_ne_nil _)
      omega
    · intro x hx
      rcases List.mem_append.mp hx with h | h
      · rw [List.eq_of_mem_replicate h]
        decide
      · exact natDigits_digits _ x h

theorem infix_append_cases (x a b : List Char) (hx : x ≠ []) (h : x <:+: a ++ b) :
    (∃ h0, x.head? = some h0 ∧ h0 ∈ a) ∨ x <:+: b := by
  induction a with
  | nil => exact Or.inr (by simpa using h)
  | cons c a' ih =>
    rw [List.cons_append] at h
    rcases List.infix_cons_iff.mp h with hpre | hinf
    · obtain ⟨x0, x', rfl⟩ : ∃ x0 x', x = x0 :: x' := by
        cases x with
        | nil => exact absurd rfl hx
        | cons x0 x' => exact ⟨x0, x', rfl⟩
      have hx0 : x0 = c := (List.cons_prefix_cons.mp hpre).1
      exact Or.inl ⟨x0, rfl, by rw [hx0]; exact List.mem_cons_self c a'⟩
    · rcases ih hinf with ⟨h0, hh, hmem⟩ | h1
      · exact Or.inl ⟨h0, hh, List.mem_cons_of_mem c hmem⟩
      · exact Or.inr h1

/-- No nonempty suffix piece of `{dataset-name}` can become a prefix of
the output of a substitution unless it already was a prefix of the
input: the replacement strings are digit strings (possibly with a
leading minus), and no suffix of the placeholder can align with them. -/
theorem prefix_pull (n r : List Char) (_hn : n ≠ []) (hr : ReplShape r) :
    ∀ (fuel : Nat) (l ds2 : List Char), l.length ≤ fuel →
      ds2 ∈ ("{dataset-name}".data).tails → ds2 ≠ [] →
      ds2 <+: replaceAllF n r fuel l → ds2 <+: l := by
  obtain ⟨r0, rs, hrr, hrs_ne, hrs_dig, hr0⟩ := hr
  intro fuel
  induction fuel with
  | zero =>
    intro l ds2 hl _ _ hp
    have hl0 : l = [] := List.length_eq_zero.mp (Nat.le_zero.mp hl)
    subst hl0
    exact hp
  | succ fuel ih =>
    intro l ds2 hl htails hne hp
    cases l with
    | nil => exact hp
    | cons c t =>
      obtain ⟨d0, ds2', rfl⟩ : ∃ d0 ds2', ds2 = d0 :: ds2' := by
        cases ds2 with
        | nil => exact absurd rfl hne
        | cons a b => exact ⟨a, b, rfl⟩
      by_cases hpre : (n ≠ [] ∧ n.isPrefixOf (c :: t) = true)
      · exfalso
        have hstep : replaceAllF n r (fuel + 1) (c :: t)
            = r ++ replaceAllF n r fuel ((c :: t).drop n.length) := by
          simp only [replaceAllF]
          rw [if_pos hpre]
        rw [hstep, hrr, List.cons_append] at hp
        have hd : d0 = r0 := (List.cons_prefix_cons.mp hp).1
        have htl := (List.cons_prefix_cons.mp hp).2
        have hd0mem : d0 ∈ "{dataset-name}".data := by
          have hsuff : (d0 :: ds2') <:+ "{dataset-name}".data := (List.mem_tails _ _).mp htails
          exact hsuff.subset (List.mem_cons_self d0 ds2')
        rcases hr0 with hdig | hdash
        · have hnod : ∀ x ∈ "{dataset-name}".data, ¬ x.isDigit = true := by decide
          rw [← hd] at hdig
          exact hnod d0 hd0mem hdig
        · have hfact : ∀ s ∈ ("{dataset-name}".data).tails,
              s.head? = some '-' → s = "-name\x7d".data := by decide
          have hds : d0 :: ds2' = "-name\x7d".data := by
            apply hfact _ htails
            rw [List.head?_cons, hd, hdash]
          have hds2 : d0 :: ds2' = '-' :: "name\x7d".data := hds
          injection hds2 with _ hds'
          obtain ⟨x, rs', rfl⟩ : ∃ x rs', rs = x :: rs' := by
            cases rs with
            | nil => exact absurd rfl hrs_ne
            | cons x rs' => exact ⟨x, rs', rfl⟩
          rw [hds', List.cons_append] at htl
          have hshape : ('n' : Char) = x := by
            have := (List.cons_prefix_cons.mp (show ('n' :: "ame\x7d".data) <+: x :: (rs' ++ _) from htl)).1
            exact this
          have hxdig : x.isDigit = true := hrs_dig x (List.mem_cons_self x rs')
          rw [← hshape] at hxdig
          exact absurd hxdig (by decide)
      · have hstep : replaceAllF n r (fuel + 1) (c :: t) = c :: replaceAllF n r fuel t := by
          simp only [replaceAllF]
          rw [if_neg hpre]
        rw [hstep] at hp
        have hd : d0 = c := (List.cons_prefix_cons.mp hp).1
        have htl : ds2' <+: replaceAllF n r fuel t := (List.cons_prefix_cons.mp hp).2
        by_cases hne' : ds2' = []
        · subst hne'
          exact List.cons_prefix_cons.mpr ⟨hd, List.nil_prefix⟩
        · have htails' : ds2' ∈ ("{dataset-name}".data).tails := by
            have h1 : ds2' <:+ d0 :: ds2' := ⟨[d0], rfl⟩
            have h2 : (d0 :: ds2') <:+ "{dataset-name}".data := (List.mem_tails _ _).mp htails
            exact (List.mem_tails _ _).mpr (h1.trans h2)
          have hlt : t.length ≤ fuel := by
            simp only [List.length_cons] at hl
            omega
          exact List.cons_prefix_cons.mpr ⟨hd, ih t ds2' hlt htails' hne' htl⟩

/-- Substituting a digit-shaped replacement string cannot introduce an
occurrence of `{dataset-name}`. -/
theorem infix_pull (n r : List Char) (hn : n ≠ []) (hr : ReplShape r) :
    ∀ (fuel : Nat) (l : List Char), l.length ≤ fuel →
      "{dataset-name}".data <:+: replaceAllF n r fuel l → "{dataset-name}".data <:+: l := by
  intro fuel
  induction fuel with
  | zero =>
    intro l hl h
    have hl0 : l = [] := List.length_eq_zero.mp (Nat.le_zero.mp hl)
    subst hl0
    exact h
  | succ fuel ih =>
    intro l hl h
    cases l with
    | nil => exact h
    | cons c t =>
      have hnl : 1 ≤ n.length := List.length_pos.mpr hn
      have hlt : t.length ≤ fuel := by
        simp only [List.length_cons] at hl
        omega
      by_cases hpre : (n ≠ [] ∧ n.isPrefixOf (c :: t) = true)
      · have hstep : replaceAllF n r (fuel + 1) (c :: t)
            = r ++ replaceAllF n r fuel ((c :: t).drop n.length) := by
          simp only [replaceAllF]
          rw [if_pos hpre]
        rw [hstep] at h
        rcases infix_append_cases _ r _ (by decide) h with ⟨h0, hh, hmem⟩ | hinf
        · exfalso
          have hh0 : h0 = '{' := by
            rw [show ("{dataset-name}".data).head? = some '{' from rfl] at hh
            injection hh with h1
            exact h1.symm
          subst hh0
          obtain ⟨r0, rs, hrr, _, hrs_dig, hr0⟩ := hr
          rw [hrr] at hmem
          rcases List.mem_cons.mp hmem with h1 | h1
          · rcases hr0 with h2 | h2
            · rw [← h1] at h2
              exact absurd h2 (by decide)
            · exact absurd (h1.trans h2) (by decide)
          · exact absurd (hrs_dig '{' h1) (by decide)
        · have hdl : ((c :: t).drop n.length).length ≤ fuel := by
            rw [List.length_drop]
            simp only [List.length_cons]
            omega
          have hd := ih _ hdl hinf
          exact hd.trans (List.IsSuffix.isInfix (List.drop_suffix _ _))
      · have hstep : replaceAllF n r (fuel + 1) (c :: t) = c :: replaceAllF n r fuel t := by
          simp only [replaceAllF]
          rw [if_neg hpre]
        rw [hstep] at h
        rcases List.infix_cons_iff.mp h with hpre2 | hinf
        · have hD : "{dataset-name}".data = '{' :: "dataset-name\x7d".data := rfl
          rw [hD] at hpre2
          have hc : ('{' : Char) = c := (List.cons_prefix_cons.mp hpre2).1
          have htl : "dataset-name\x7d".data <+: replaceAllF n r fuel t :=
            (List.cons_prefix_cons.mp hpre2).2
          have htails : "dataset-name\x7d".data ∈ ("{dataset-name}".data).tails := by decide
          have h2 : "dataset-name\x7d".data <+: t :=
            prefix_pull n r hn hr fuel t "dataset-name\x7d".data hlt htails (by decide) htl
          refine List.IsPrefix.isInfix ?_
          rw [hD]
          exact List.cons_prefix_cons.mpr ⟨hc, h2⟩
        · exact List.infix_cons_iff.mpr (Or.inr (ih t hlt hinf))

theorem containsSub_iff (n l : List Char) : containsSub n l = true ↔ n <:+: l := by
  induction l with
  | nil =>
    simp only [containsSub]
    rw [List.isEmpty_iff]
    exact ⟨fun h => h ▸ List.nil_infix, fun h => List.eq_nil_of_infix_nil h⟩
  | cons c t ih =>
    simp only [containsSub, Bool.or_eq_true, ih]
    rw [ List.isPrefixOf_iff_prefix, List.infix_cons_iff]

/-- No occurrence of `{dataset-name}` in the partially substituted URL
when the original pattern has none, hence the `if` branch that injects
the key is never taken. -/
theorem buildUrl_keyIndep (p : String) (y mi di : Int) (k1 k2 : String)
    (hp : containsSub "{dataset-name}".data p.data = false) :
    buildUrl p y mi di k1 = buildUrl p y mi di k2 := by
  have hocc0 : ¬ "{dataset-name}".data <:+: p.data := by
    intro h
    rw [(containsSub_iff _ _).mpr h] at hp
    exact Bool.noConfusion hp
  have hocc1 : ¬ "{dataset-name}".data <:+: (pySubst p "{YYYY}" (formatInt y 4)).data := by
    intro h
    exact hocc0 (infix_pull "{YYYY}".data (formatInt y 4).data (by decide)
      (formatInt_shape y 4 (by omega)) p.data.length p.data (le_refl _) h)
  have hocc2 : ¬ "{dataset-name}".data <:+:
      (pySubst (pySubst p "{YYYY}" (formatInt y 4)) "{MM}" (formatInt mi 2)).data := by
    intro h
    exact hocc1 (infix_pull "{MM}".data (formatInt mi 2).data (by decide)
      (formatInt_shape mi 2 (by omega))
      (pySubst p "{YYYY}" (formatInt y 4)).data.length
      (pySubst p "{YYYY}" (formatInt y 4)).data (le_refl _) h)
  have hocc3 : ¬ "{dataset-name}".data <:+:
      (pySubst (pySubst (pySubst p "{YYYY}" (formatInt y 4)) "{MM}" (formatInt mi 2))
        "{DD}" (formatInt di 2)).data := by
    intro h
    exact hocc2 (infix_pull "{DD}".data (formatInt di 2).data (by decide)
      (formatInt_shape di 2 (by omega))
      (pySubst (pySubst p "{YYYY}" (formatInt y 4)) "{MM}" (formatInt mi 2)).data.length
      (pySubst (pySubst p "{YYYY}" (formatInt y 4)) "{MM}" (formatInt mi 2)).data (le_refl _) h)
  have hc : containsSub "{dataset-name}".data
      (pySubst (pySubst (pySubst p "{YYYY}" (formatInt y 4)) "{MM}" (formatInt mi 2))
        "{DD}" (formatInt di 2)).data = false :=
    Bool.eq_false_iff.mpr (fun h => hocc3 ((containsSub_iff _ _).mp h))
  simp [buildUrl, hc]

/-- The month loop produces key-independent output on placeholder-free
patterns. -/
theorem urlsForYear_keyIndep (y : Int) (patterns : List String) (k1 k2 day : String)
    (hpat : ∀ p ∈ patterns, containsSub "{dataset-name}".data p.data = false) :
    ∀ (months : List String),
      urlsForYear y months patterns k1 day = urlsForYear y months patterns k2 day := by
  intro months
  induction months with
  | nil => rfl
  | cons m ms ih =>
    simp only [urlsForYear]
    rw [ih]
    cases pyInt? m with
    | none => rfl
    | some mi =>
      cases pyInt? day with
      | none => rfl
      | some di =>
        cases urlsForYear y ms patterns k2 day with
        | none => rfl
        | some rest =>
          have hmap : patterns.map (fun p => buildUrl p y mi di k1)
              = patterns.map (fun p => buildUrl p y mi di k2) :=
            List.map_congr_left (fun p hpm => buildUrl_keyIndep p y mi di k1 k2 (hpat p hpm))
          show some (patterns.map (fun p => buildUrl p y mi di k1) ++ rest)
              = some (patterns.map (fun p => buildUrl p y mi di k2) ++ rest)
          rw [hmap]

/-- C9: if no pattern contains the substring `{dataset-name}`, the
catalog produced by `url_generate` is identical for any two dataset
keys: the pattern set is still expanded once per key, and the expansion
does not depend on the key. -/
theorem c9_key_independence (ys ye : Int) (months patterns : List String) (k1 k2 day : String)
    (hpat : ∀ p ∈ patterns, containsSub "{dataset-name}".data p.data = false) :
    url_generate ys ye months patterns k1 day = url_generate ys ye months patterns k2 day := by
  unfold url_generate
  generalize intRange ys ye = years
  induction years with
  | nil => rfl
  | cons y ysl ih =>
    simp only [urlsFromYears]
    rw [ih, urlsForYear_keyIndep y patterns k1 k2 day hpat months]

theorem c9_witness :
    url_generate 2021 2021 ["01"] ["https://x/{YYYY}/{MM}.zip"] "k1" "01"
      = url_generate 2021 2021 ["01"] ["https://x/{YYYY}/{MM}.zip"] "k2" "01" :=
  c9_key_independence 2021 2021 ["01"] ["https://x/{YYYY}/{MM}.zip"] "k1" "k2" "01" (by decide)

/-! ## Claim C10 -/

theorem mergeLoop_mkdirCalled (od : String) (all : List (String × String)) :
    ∀ (rest : List String) (acc : MergeEffect), (mergeLoop od all rest acc).mkdirCalled = acc.mkdirCalled := by
  intro rest
  induction rest with
  | nil => intro acc; rfl
  | cons pname rest ih =>
    intro acc
    simp only [mergeLoop]
    split
    · exact ih acc
    · exact ih _

/-- C10: the output directory is created (the unconditional
`output_path.mkdir(parents=True, exist_ok=True)`) on every call, in
particular in both degenerate cases (missing source directory, empty
prefix list) where an empty mapping is returned and nothing is merged. -/
theorem c10_mkdir_side_effect (src : SourceDir) (sd od : String) (prefixes : List String) :
    (merge_csv_files src sd od prefixes).mkdirCalled = true ∧
    ((merge_csv_files ⟨false, src.entries⟩ sd od prefixes).mkdirCalled = true ∧
      (merge_csv_files ⟨false, src.entries⟩ sd od prefixes).result = [] ∧
      (merge_csv_files ⟨false, src.entries⟩ sd od prefixes).written = []) ∧
    ((merge_csv_files src sd od []).mkdirCalled = true ∧
      (merge_csv_files src sd od []).result = [] ∧
      (merge_csv_files src sd od []).written = []) := by
  refine ⟨?_, ⟨rfl, rfl, rfl⟩, ?_⟩
  · unfold merge_csv_files
    split
    · rfl
    · split
      · rfl
      · rw [mergeLoop_mkdirCalled]
  · unfold merge_csv_files
    split
    · exact ⟨rfl, rfl, rfl⟩
    · split
      · exact ⟨rfl, rfl, rfl⟩
      · simp_all

end AnacOd
